import Mathlib

/-!
Verification of the Alternating Least Squares (ALS) collaborative-filtering
engine specified for the spark-lab repository.  The notebook in the repository
delegates the factorization to an external library, so the engine itself
(Linear Solver, Factor Update Engine, ALS Trainer, Predictor/Evaluator,
Split) is modelled faithfully from the specification, over exact rational
arithmetic.  Every definition is executable so that concrete runs can be
evaluated inside proofs.
-/

namespace SparkALS

open Matrix

attribute [local semireducible] Rat.add Rat.mul Rat.sub Rat.inv Rat.ofScientific

/-- Factor vectors of a fixed rank, with exact rational entries. -/
abbrev Vec (k : ℕ) := Fin k → ℚ

/-- A factor matrix: one rank-length row per (re-indexed) entity id. -/
abbrev Factors (k : ℕ) := ℕ → Vec k

/-- Squared euclidean norm of a factor vector. -/
def sqNorm {k : ℕ} (v : Vec k) : ℚ := v ⬝ᵥ v

/-- Executable determinant by cofactor expansion along the first row; it
computes by kernel reduction, unlike the permutation-sum determinant. -/
def detQ : ∀ {k : ℕ}, Matrix (Fin k) (Fin k) ℚ → ℚ
  | 0, _ => 1
  | k + 1, A =>
      ∑ j : Fin (k + 1), (-1) ^ (j : ℕ) * A 0 j *
        detQ (A.submatrix Fin.succ (Fin.succAbove j))

lemma detQ_eq_det : ∀ {k : ℕ} (A : Matrix (Fin k) (Fin k) ℚ),
    detQ A = A.det
  | 0, A => by simp [detQ, Matrix.det_fin_zero]
  | k + 1, A => by
      rw [detQ, Matrix.det_succ_row_zero]
      exact Finset.sum_congr rfl fun j _ => by rw [detQ_eq_det]

/-- Executable adjugate, entrywise through the executable determinant. -/
def adjQ {k : ℕ} (A : Matrix (Fin k) (Fin k) ℚ) :
    Matrix (Fin k) (Fin k) ℚ :=
  Matrix.of fun i j => detQ (A.updateRow j (Pi.single i 1))

lemma adjQ_eq_adjugate {k : ℕ} (A : Matrix (Fin k) (Fin k) ℚ) :
    adjQ A = A.adjugate := by
  ext i j
  rw [Matrix.adjugate_apply, ← detQ_eq_det]
  rfl

/-- Modelled from the spec: the Linear Solver of section 4.1.  It is the
numerical kernel missing from the source notebook (the notebook calls the
external library).  Given a k-by-k matrix A, a vector b and a regularization
scalar lam, it solves the regularized normal equations (A + lam I) x = b,
returning none (a NumericalError) exactly when the regularized matrix is
singular.  The solution is produced through the adjugate formula, which
agrees with any exact symmetric decomposition. -/
def LinearSolver {k : ℕ} (A : Matrix (Fin k) (Fin k) ℚ) (b : Vec k)
    (lam : ℚ) : Option (Vec k) :=
  if detQ (A + lam • (1 : Matrix (Fin k) (Fin k) ℚ)) = 0 then none
  else
    some ((detQ (A + lam • (1 : Matrix (Fin k) (Fin k) ℚ)))⁻¹ •
      (adjQ (A + lam • (1 : Matrix (Fin k) (Fin k) ℚ))).mulVec b)

/-- A symmetric positive-semi-definite matrix, as required by the Linear
Solver contract of the spec. -/
def IsSymmPSD {k : ℕ} (A : Matrix (Fin k) (Fin k) ℚ) : Prop :=
  Aᵀ = A ∧ ∀ v : Vec k, 0 ≤ v ⬝ᵥ A.mulVec v

/-- The objective named by the spec sentence for the Linear Solver: the
squared residual of A x minus b, plus lam times the squared norm of x. -/
def lsObjective {k : ℕ} (A : Matrix (Fin k) (Fin k) ℚ) (b : Vec k)
    (lam : ℚ) (x : Vec k) : ℚ :=
  sqNorm (A.mulVec x - b) + lam * sqNorm x

/-- The quadratic objective actually minimized by the solution of the
regularized normal equations (A + lam I) x = b. -/
def quadObjective {k : ℕ} (A : Matrix (Fin k) (Fin k) ℚ) (b : Vec k)
    (lam : ℚ) (x : Vec k) : ℚ :=
  x ⬝ᵥ A.mulVec x - 2 * (b ⬝ᵥ x) + lam * sqNorm x

lemma sqNorm_nonneg {k : ℕ} (v : Vec k) : 0 ≤ sqNorm v :=
  Finset.sum_nonneg fun i _ => mul_self_nonneg (v i)

lemma sqNorm_pos {k : ℕ} {v : Vec k} (hv : v ≠ 0) : 0 < sqNorm v := by
  rcases (sqNorm_nonneg v).lt_or_eq with h | h
  · exact h
  · exfalso
    apply hv
    funext i
    have h0 : ∀ j ∈ Finset.univ, 0 ≤ v j * v j := fun j _ => mul_self_nonneg _
    have := (Finset.sum_eq_zero_iff_of_nonneg h0).mp h.symm i (Finset.mem_univ i)
    exact mul_self_eq_zero.mp this

lemma linearSolver_det_ne_zero {k : ℕ} {A : Matrix (Fin k) (Fin k) ℚ}
    {b x : Vec k} {lam : ℚ} (h : LinearSolver A b lam = some x) :
    (A + lam • (1 : Matrix (Fin k) (Fin k) ℚ)).det ≠ 0 := by
  unfold LinearSolver at h
  split_ifs at h with hdet
  rw [detQ_eq_det] at hdet
  exact hdet

lemma linearSolver_some_eq {k : ℕ} {A : Matrix (Fin k) (Fin k) ℚ}
    {b x : Vec k} {lam : ℚ} (h : LinearSolver A b lam = some x) :
    x = (A + lam • (1 : Matrix (Fin k) (Fin k) ℚ)).det⁻¹ •
      (A + lam • (1 : Matrix (Fin k) (Fin k) ℚ)).adjugate.mulVec b := by
  unfold LinearSolver at h
  split_ifs at h with hdet
  rw [detQ_eq_det, adjQ_eq_adjugate] at h
  exact (Option.some_injective _ h).symm

lemma linearSolver_mulVec {k : ℕ} {A : Matrix (Fin k) (Fin k) ℚ} {b x : Vec k}
    {lam : ℚ} (h : LinearSolver A b lam = some x) :
    (A + lam • (1 : Matrix (Fin k) (Fin k) ℚ)).mulVec x = b := by
  have hdet := linearSolver_det_ne_zero h
  rw [linearSolver_some_eq h, Matrix.mulVec_smul, Matrix.mulVec_mulVec,
    Matrix.mul_adjugate, Matrix.smul_mulVec_assoc, Matrix.one_mulVec,
    smul_smul, inv_mul_cancel₀ hdet, one_smul]

lemma reg_quadform {k : ℕ} (A : Matrix (Fin k) (Fin k) ℚ) (lam : ℚ)
    (v : Vec k) :
    v ⬝ᵥ (A + lam • (1 : Matrix (Fin k) (Fin k) ℚ)).mulVec v =
      v ⬝ᵥ A.mulVec v + lam * sqNorm v := by
  rw [Matrix.add_mulVec, Matrix.smul_mulVec_assoc, Matrix.one_mulVec,
    dotProduct_add, dotProduct_smul, smul_eq_mul, sqNorm]

lemma regMatrix_det_ne_zero {k : ℕ} {A : Matrix (Fin k) (Fin k) ℚ} {lam : ℚ}
    (hA : IsSymmPSD A) (hlam : 0 < lam) :
    (A + lam • (1 : Matrix (Fin k) (Fin k) ℚ)).det ≠ 0 := by
  intro hdet
  obtain ⟨v, hv, hMv⟩ := (Matrix.exists_mulVec_eq_zero_iff).mpr hdet
  have h0 : v ⬝ᵥ (A + lam • (1 : Matrix (Fin k) (Fin k) ℚ)).mulVec v = 0 := by
    rw [hMv, dotProduct_zero]
  rw [reg_quadform] at h0
  have h1 := hA.2 v
  have h2 : 0 < lam * sqNorm v := mul_pos hlam (sqNorm_pos hv)
  linarith

lemma det_ne_zero_mulVec_inj {k : ℕ} {M : Matrix (Fin k) (Fin k) ℚ}
    (hdet : M.det ≠ 0) {x y : Vec k}
    (h : M.mulVec x = M.mulVec y) : x = y := by
  by_contra hne
  apply hdet
  rw [← Matrix.exists_mulVec_eq_zero_iff]
  refine ⟨x - y, sub_ne_zero.mpr hne, ?_⟩
  rw [Matrix.mulVec_sub, h, sub_self]

lemma quad_sub_eq {k : ℕ} {M : Matrix (Fin k) (Fin k) ℚ} (hsymm : Mᵀ = M)
    {x b : Vec k} (hx : M.mulVec x = b) (y : Vec k) :
    (y ⬝ᵥ M.mulVec y - 2 * (b ⬝ᵥ y)) - (x ⬝ᵥ M.mulVec x - 2 * (b ⬝ᵥ x)) =
      (y - x) ⬝ᵥ M.mulVec (y - x) := by
  have hcross : x ⬝ᵥ M.mulVec y = b ⬝ᵥ y := by
    rw [dotProduct_mulVec, ← hsymm, Matrix.vecMul_transpose, hx]
  have hcross2 : y ⬝ᵥ M.mulVec x = b ⬝ᵥ y := by
    rw [hx, dotProduct_comm]
  have hxx : x ⬝ᵥ M.mulVec x = b ⬝ᵥ x := by
    rw [hx, dotProduct_comm]
  rw [Matrix.mulVec_sub, dotProduct_sub, sub_dotProduct, sub_dotProduct,
    hcross, hcross2, hxx]
  ring

lemma quadObjective_eq {k : ℕ} (A : Matrix (Fin k) (Fin k) ℚ) (b : Vec k)
    (lam : ℚ) (x : Vec k) :
    quadObjective A b lam x =
      x ⬝ᵥ (A + lam • (1 : Matrix (Fin k) (Fin k) ℚ)).mulVec x -
        2 * (b ⬝ᵥ x) := by
  rw [reg_quadform, quadObjective]
  ring

lemma linearSolver_minimizes {k : ℕ} {A : Matrix (Fin k) (Fin k) ℚ}
    {b x : Vec k} {lam : ℚ} (hA : IsSymmPSD A) (hlam : 0 ≤ lam)
    (h : LinearSolver A b lam = some x) (y : Vec k) :
    quadObjective A b lam x ≤ quadObjective A b lam y := by
  have hsymm : (A + lam • (1 : Matrix (Fin k) (Fin k) ℚ))ᵀ =
      A + lam • (1 : Matrix (Fin k) (Fin k) ℚ) := by
    rw [Matrix.transpose_add, Matrix.transpose_smul, Matrix.transpose_one,
      hA.1]
  have hpsd : ∀ v : Vec k,
      0 ≤ v ⬝ᵥ (A + lam • (1 : Matrix (Fin k) (Fin k) ℚ)).mulVec v := by
    intro v
    rw [reg_quadform]
    have := hA.2 v
    have := mul_nonneg hlam (sqNorm_nonneg v)
    linarith
  have hx := linearSolver_mulVec h
  have key := quad_sub_eq hsymm hx y
  have hge := hpsd (y - x)
  rw [quadObjective_eq, quadObjective_eq]
  linarith [key ▸ hge]

/-- C1: the spec describes the Linear Solver output as the minimizer of the
objective normSq (A x - b) + lam * normSq x and asserts this is equivalent to
solving (A + lam I) x = b.  The two characterizations are not equivalent:
at A = [[2]], b = [1], lam = 1 the solver returns x = [1/3] (solving the
regularized system), yet the vector [2/5] achieves a strictly smaller value
of the stated objective. -/
theorem C1_counterexample :
    LinearSolver !![(2 : ℚ)] ![1] 1 = some ![1/3] ∧
      lsObjective !![(2 : ℚ)] ![1] 1 ![2/5] <
        lsObjective !![(2 : ℚ)] ![1] 1 ![1/3] := by
  constructor
  · unfold LinearSolver
    rw [if_neg (by decide :
      ¬ detQ (!![(2 : ℚ)] + (1 : ℚ) • (1 : Matrix (Fin 1) (Fin 1) ℚ)) = 0)]
    exact congrArg some (by decide)
  · decide

/-- C1 (amended): for every symmetric positive-semi-definite A and lam > 0
the Linear Solver succeeds and returns the unique solution x of
(A + lam I) x = b; this x minimizes the quadratic objective
x.A.x - 2 b.x + lam * normSq x (the regularized least-squares objective in
normal-equation form), not the objective normSq (A x - b) + lam * normSq x
stated by the spec. -/
theorem C1_linearSolver_unique_solution_minimizer {k : ℕ}
    (A : Matrix (Fin k) (Fin k) ℚ) (b : Vec k) (lam : ℚ)
    (hA : IsSymmPSD A) (hlam : 0 < lam) :
    ∃ x, LinearSolver A b lam = some x ∧
      (A + lam • (1 : Matrix (Fin k) (Fin k) ℚ)).mulVec x = b ∧
      (∀ y, (A + lam • (1 : Matrix (Fin k) (Fin k) ℚ)).mulVec y = b →
        y = x) ∧
      (∀ y, quadObjective A b lam x ≤ quadObjective A b lam y) := by
  have hdet := regMatrix_det_ne_zero hA hlam
  have hdetQ : detQ (A + lam • (1 : Matrix (Fin k) (Fin k) ℚ)) ≠ 0 := by
    rw [detQ_eq_det]
    exact hdet
  have hsolve : LinearSolver A b lam =
      some ((detQ (A + lam • (1 : Matrix (Fin k) (Fin k) ℚ)))⁻¹ •
        (adjQ (A + lam • (1 : Matrix (Fin k) (Fin k) ℚ))).mulVec b) := by
    unfold LinearSolver
    rw [if_neg hdetQ]
  refine ⟨_, hsolve, linearSolver_mulVec hsolve, ?_, ?_⟩
  · intro y hy
    exact det_ne_zero_mulVec_inj hdet
      (by rw [hy, linearSolver_mulVec hsolve])
  · exact linearSolver_minimizes hA hlam.le hsolve

/-- Witness for C1 at the concrete input A = [[2]], b = [1], lam = 1. -/
theorem C1_witness :
    LinearSolver !![(2 : ℚ)] ![1] 1 = some ![1/3] ∧
      quadObjective !![(2 : ℚ)] ![1] 1 ![1/3] ≤
        quadObjective !![(2 : ℚ)] ![1] 1 ![0] := by
  have hA : IsSymmPSD !![(2 : ℚ)] := by
    constructor
    · decide
    · intro v
      have h2 : v ⬝ᵥ (!![(2 : ℚ)]).mulVec v = 2 * (v 0 * v 0) := by
        simp [Matrix.mulVec, dotProduct, Fin.sum_univ_one]
        ring
      rw [h2]
      nlinarith [mul_self_nonneg (v 0)]
  obtain ⟨x, hx, -, huniq, hmin⟩ :=
    C1_linearSolver_unique_solution_minimizer !![(2 : ℚ)] ![1] 1 hA
      (by norm_num)
  have hxval : x = ![1/3] := (huniq ![1/3] (by decide)).symm
  rw [hxval] at hx hmin
  exact ⟨hx, hmin ![0]⟩

/-- A rating triple held by the Rating Store. -/
structure Rating where
  user : ℕ
  item : ℕ
  value : ℚ
deriving DecidableEq

/-- By-user sparse index of the rating matrix: the (item, rating) pairs of
one user. -/
def ratingsByUser (rs : List Rating) (u : ℕ) : List (ℕ × ℚ) :=
  (rs.filter fun r => r.user == u).map fun r => (r.item, r.value)

/-- By-item sparse index of the rating matrix: the (user, rating) pairs of
one item. -/
def ratingsByItem (rs : List Rating) (i : ℕ) : List (ℕ × ℚ) :=
  (rs.filter fun r => r.item == i).map fun r => (r.user, r.value)

/-- The distinct user ids observed in the rating set. -/
def userList (rs : List Rating) : List ℕ :=
  (rs.map Rating.user).dedup

/-- The distinct item ids observed in the rating set. -/
def itemList (rs : List Rating) : List ℕ :=
  (rs.map Rating.item).dedup

/-- Gram matrix A of a subject (spec section 4.2): the sum over its observed
(other, rating) pairs of the outer product of the fixed-side row with
itself. -/
def gram {k : ℕ} (fixed : Factors k) (l : List (ℕ × ℚ)) :
    Matrix (Fin k) (Fin k) ℚ :=
  (l.map fun p => Matrix.vecMulVec (fixed p.1) (fixed p.1)).sum

/-- Vector b of a subject (spec section 4.2): the sum of rating times the
fixed-side row. -/
def rhsVec {k : ℕ} (fixed : Factors k) (l : List (ℕ × ℚ)) : Vec k :=
  (l.map fun p => p.2 • fixed p.1).sum

/-- One regularized normal-equation solve for one subject. -/
def solveSubject {k : ℕ} (fixed : Factors k) (l : List (ℕ × ℚ))
    (lam : ℚ) : Option (Vec k) :=
  LinearSolver (gram fixed l) (rhsVec fixed l) lam

/-- The two sides of the factorization. -/
inductive Side
  | users
  | items
deriving DecidableEq

/-- Error raised during training (spec section 7): a regularized solve
failed, annotated with the offending subject id and side. -/
inductive ALSError
  | numericalError (subject : ℕ) (side : Side)
deriving DecidableEq

/-- Modelled from the spec: the Factor Update Engine of section 4.2, missing
from the source notebook.  For each subject with at least one observed
rating it calls the Linear Solver on (gram, rhsVec, lam); subjects with no
observed rating keep their previous row.  A failed solve aborts the whole
update with a NumericalError annotated with the subject id and side. -/
def updateSide {k : ℕ} (side : Side) (subjects : List ℕ) (fixed : Factors k)
    (rbs : ℕ → List (ℕ × ℚ)) (lam : ℚ) (old : Factors k) :
    Except ALSError (Factors k) :=
  match subjects.find?
      (fun s => !(rbs s).isEmpty && (solveSubject fixed (rbs s) lam).isNone)
    with
  | some s => .error (.numericalError s side)
  | none => .ok fun s =>
      if s ∈ subjects ∧ rbs s ≠ [] then
        (solveSubject fixed (rbs s) lam).getD (old s)
      else old s

lemma updateSide_ok_inv {k : ℕ} {side : Side} {subjects : List ℕ}
    {fixed : Factors k} {rbs : ℕ → List (ℕ × ℚ)} {lam : ℚ}
    {old g : Factors k}
    (h : updateSide side subjects fixed rbs lam old = .ok g) :
    (∀ s ∈ subjects, ¬((rbs s).isEmpty = false ∧
        solveSubject fixed (rbs s) lam = none)) ∧
    g = fun s =>
      if s ∈ subjects ∧ rbs s ≠ [] then
        (solveSubject fixed (rbs s) lam).getD (old s)
      else old s := by
  unfold updateSide at h
  cases hf : subjects.find?
      (fun s => !(rbs s).isEmpty && (solveSubject fixed (rbs s) lam).isNone)
    with
  | some s => rw [hf] at h; cases h
  | none =>
      rw [hf] at h
      refine ⟨?_, (Except.ok.inj h).symm⟩
      intro s hs hcontra
      have hp := List.find?_eq_none.mp hf s hs
      apply hp
      simp only [Bool.and_eq_true, Bool.not_eq_true']
      exact ⟨hcontra.1, Option.isNone_iff_eq_none.mpr hcontra.2⟩

lemma updateSide_ok_keeps {k : ℕ} {side : Side} {subjects : List ℕ}
    {fixed : Factors k} {rbs : ℕ → List (ℕ × ℚ)} {lam : ℚ}
    {old g : Factors k}
    (h : updateSide side subjects fixed rbs lam old = .ok g) (s : ℕ)
    (hs : s ∉ subjects ∨ rbs s = []) : g s = old s := by
  rw [(updateSide_ok_inv h).2]
  simp only []
  rw [if_neg]
  intro ⟨h1, h2⟩
  rcases hs with hs | hs
  · exact hs h1
  · exact h2 hs

lemma updateSide_ok_solves {k : ℕ} {side : Side} {subjects : List ℕ}
    {fixed : Factors k} {rbs : ℕ → List (ℕ × ℚ)} {lam : ℚ}
    {old g : Factors k}
    (h : updateSide side subjects fixed rbs lam old = .ok g) {s : ℕ}
    (hs : s ∈ subjects) (hne : rbs s ≠ []) :
    solveSubject fixed (rbs s) lam = some (g s) := by
  obtain ⟨hall, hg⟩ := updateSide_ok_inv h
  have hempty : (rbs s).isEmpty = false := by
    cases hrbs : rbs s with
    | nil => exact absurd hrbs hne
    | cons a t => rfl
  have hsolve : solveSubject fixed (rbs s) lam ≠ none := fun hc =>
    hall s hs ⟨hempty, hc⟩
  obtain ⟨v, hv⟩ := Option.ne_none_iff_exists'.mp hsolve
  rw [hg]
  simp only [if_pos (And.intro hs hne)]
  rw [hv, Option.getD_some]

lemma updateSide_error_inv {k : ℕ} {side : Side} {subjects : List ℕ}
    {fixed : Factors k} {rbs : ℕ → List (ℕ × ℚ)} {lam : ℚ}
    {old : Factors k} {e : ALSError}
    (h : updateSide side subjects fixed rbs lam old = .error e) :
    ∃ s, e = .numericalError s side ∧ s ∈ subjects ∧ rbs s ≠ [] ∧
      solveSubject fixed (rbs s) lam = none := by
  unfold updateSide at h
  cases hf : subjects.find?
      (fun s => !(rbs s).isEmpty && (solveSubject fixed (rbs s) lam).isNone)
    with
  | none => rw [hf] at h; cases h
  | some s =>
      rw [hf] at h
      have hmem := List.mem_of_find?_eq_some hf
      have hp := List.find?_some hf
      simp only [Bool.and_eq_true, Bool.not_eq_true'] at hp
      refine ⟨s, (Except.error.inj h).symm, hmem, ?_,
        Option.isNone_iff_eq_none.mp hp.2⟩
      intro hnil
      rw [hnil] at hp
      exact absurd hp.1 (by simp)

/-- Training state of the ALS Trainer: the two factor matrices. -/
structure ALSState (k : ℕ) where
  userF : Factors k
  itemF : Factors k

/-- Modelled from the spec: one training step of the ALS Trainer (section
4.3): one full update of item factors using the current user factors,
followed by one full update of user factors using the just-updated item
factors; this ordering is fixed.  A NumericalError from either half-step
aborts the step. -/
def step {k : ℕ} (rs : List Rating) (lam : ℚ) (st : ALSState k) :
    Except ALSError (ALSState k) :=
  match updateSide .items (itemList rs) st.userF (ratingsByItem rs) lam
      st.itemF with
  | .error e => .error e
  | .ok itemF2 =>
      match updateSide .users (userList rs) itemF2 (ratingsByUser rs) lam
          st.userF with
      | .error e => .error e
      | .ok userF2 => .ok ⟨userF2, itemF2⟩

/-- Modelled from the spec: the iteration loop of the ALS Trainer, running
the configured number of steps and halting on the first NumericalError. -/
def trainLoop {k : ℕ} (rs : List Rating) (lam : ℚ) :
    ℕ → ALSState k → Except ALSError (ALSState k)
  | 0, st => .ok st
  | n + 1, st =>
      match step rs lam st with
      | .error e => .error e
      | .ok st2 => trainLoop rs lam n st2

/-- Modelled from the spec: seed-deterministic pseudo-random factor
initialization (section 4.3), a simple integer hash into the interval from
1/10 to 1, never zero, so the starting point is non-degenerate. -/
def initEntry (seed side s j : ℕ) : ℚ :=
  (((seed + 31 * s + 7 * j + 13 * side) % 10 + 1 : ℕ) : ℚ) / 10

/-- Initial training state produced from the configured seed. -/
def initState (k seed : ℕ) : ALSState k :=
  ⟨fun s => fun j => initEntry seed 0 s j.val,
   fun s => fun j => initEntry seed 1 s j.val⟩

/-- Modelled from the spec: the whole training run of the ALS Trainer:
initialize both factor matrices from the seed, then run the configured
number of alternating steps. -/
def train (k iterations : ℕ) (lam : ℚ) (seed : ℕ) (rs : List Rating) :
    Except ALSError (ALSState k) :=
  trainLoop rs lam iterations (initState k seed)

/-- Total training-set squared reconstruction error of a state. -/
def sqErrTotal {k : ℕ} (rs : List Rating) (st : ALSState k) : ℚ :=
  (rs.map fun r => (r.value - st.userF r.user ⬝ᵥ st.itemF r.item) ^ 2).sum

/-- Sum of squared norms of the factor rows of the listed subjects. -/
def rowNormSum {k : ℕ} (subjects : List ℕ) (F : Factors k) : ℚ :=
  (subjects.map fun s => sqNorm (F s)).sum

/-- The regularized training objective that alternating minimization
actually descends: squared reconstruction error plus lam times the squared
norms of all observed factor rows.  At lam = 0 it coincides with
sqErrTotal. -/
def regObjective {k : ℕ} (rs : List Rating) (lam : ℚ) (st : ALSState k) :
    ℚ :=
  sqErrTotal rs st +
    lam * (rowNormSum (userList rs) st.userF +
      rowNormSum (itemList rs) st.itemF)

/-- The one-subject regularized objective minimized by one solve: the
squared residuals of this subject against the fixed side, plus lam times
the squared norm of its row. -/
def localObj {k : ℕ} (fixed : Factors k) (l : List (ℕ × ℚ)) (lam : ℚ)
    (z : Vec k) : ℚ :=
  (l.map fun p => (p.2 - fixed p.1 ⬝ᵥ z) ^ 2).sum + lam * sqNorm z

lemma linearSolver_eq_none_iff {k : ℕ} {A : Matrix (Fin k) (Fin k) ℚ}
    {b : Vec k} {lam : ℚ} (hA : IsSymmPSD A) (hlam : 0 ≤ lam) :
    (LinearSolver A b lam = none ↔ lam = 0 ∧ A.det = 0) := by
  unfold LinearSolver
  constructor
  · intro h
    split_ifs at h with hdet
    · rw [detQ_eq_det] at hdet
      rcases hlam.lt_or_eq with hpos | h0
      · exact absurd hdet (regMatrix_det_ne_zero hA hpos)
      · refine ⟨h0.symm, ?_⟩
        rw [← h0, zero_smul, add_zero] at hdet
        exact hdet
  · rintro ⟨h0, hdet⟩
    subst h0
    rw [if_pos]
    rw [detQ_eq_det, zero_smul, add_zero]
    exact hdet

/-- C3: for every subject s with at least one observed rating, updateSide
sets the new factor row of s to the Linear Solver output on (A, b, lambda)
where A is the sum over the observed (other, rating) pairs of the outer
product of the fixed row with itself and b is the sum of rating times the
fixed row; every subject with zero observed ratings keeps its previous
factor row unchanged. -/
theorem C3_updateSide_contract {k : ℕ} (side : Side) (subjects : List ℕ)
    (fixed : Factors k) (rbs : ℕ → List (ℕ × ℚ)) (lam : ℚ)
    (old g : Factors k)
    (h : updateSide side subjects fixed rbs lam old = .ok g) :
    (∀ s ∈ subjects, rbs s ≠ [] →
      LinearSolver (gram fixed (rbs s)) (rhsVec fixed (rbs s)) lam =
        some (g s)) ∧
    (∀ s, s ∉ subjects ∨ rbs s = [] → g s = old s) :=
  ⟨fun _ hs hne => updateSide_ok_solves h hs hne,
   fun s hs => updateSide_ok_keeps h s hs⟩

/-- Concrete fixed-side factors for the C3 witness. -/
def c3fixed : Factors 1 := fun _ => ![1]

/-- Concrete ratings-by-subject index for the C3 witness: subject 1 has one
observed rating, subject 5 has none. -/
def c3rbs : ℕ → List (ℕ × ℚ) := fun s => if s = 1 then [(2, 3)] else []

/-- Concrete previous factors for the C3 witness. -/
def c3old : Factors 1 := fun _ => ![0]

/-- The C3 witness update call. -/
def c3upd : Except ALSError (Factors 1) :=
  updateSide .items [1, 5] c3fixed c3rbs 1 c3old

/-- The factor function produced by the C3 witness update call. -/
def c3new : Factors 1 := fun s =>
  if s ∈ [1, 5] ∧ c3rbs s ≠ [] then
    (solveSubject c3fixed (c3rbs s) 1).getD (c3old s)
  else c3old s

/-- Witness for C3: on the concrete update call, the rated subject 1 gets
the solver output 3/2 and the unrated subject 5 keeps its old row. -/
theorem C3_witness : c3new 1 = ![3/2] ∧ c3new 5 = ![0] := by
  have h : c3upd = .ok c3new := rfl
  obtain ⟨hsolve, hkeep⟩ :=
    C3_updateSide_contract Side.items [1, 5] c3fixed c3rbs 1 c3old c3new h
  constructor
  · have h1 := hsolve 1 (by decide) (by decide)
    have hval : LinearSolver (gram c3fixed (c3rbs 1))
        (rhsVec c3fixed (c3rbs 1)) 1 = some ![3/2] := by
      unfold LinearSolver
      rw [if_neg (by decide : ¬ detQ (gram c3fixed (c3rbs 1) +
        (1 : ℚ) • (1 : Matrix (Fin 1) (Fin 1) ℚ)) = 0)]
      exact congrArg some (by decide)
    rw [h1] at hval
    exact Option.some_injective _ hval
  · exact hkeep 5 (Or.inr (by decide))

/-- C4: the Linear Solver fails exactly when lambda = 0 and A is singular
(never for lambda positive, A symmetric PSD); a failing updateSide call
produces a NumericalError annotated with the offending subject id and side
for a subject whose solve really failed; and a failing step makes the whole
training loop halt with that same error, returning no factor matrices. -/
theorem C4_numericalError_iff_and_propagation :
    (∀ {k : ℕ} (A : Matrix (Fin k) (Fin k) ℚ) (b : Vec k) (lam : ℚ),
      IsSymmPSD A → 0 ≤ lam →
      (LinearSolver A b lam = none ↔ lam = 0 ∧ A.det = 0)) ∧
    (∀ {k : ℕ} (side : Side) (subjects : List ℕ) (fixed : Factors k)
      (rbs : ℕ → List (ℕ × ℚ)) (lam : ℚ) (old : Factors k) (e : ALSError),
      updateSide side subjects fixed rbs lam old = Except.error e →
      ∃ s, e = ALSError.numericalError s side ∧ s ∈ subjects ∧ rbs s ≠ [] ∧
        solveSubject fixed (rbs s) lam = none) ∧
    (∀ {k : ℕ} (rs : List Rating) (lam : ℚ) (st : ALSState k)
      (e : ALSError) (n : ℕ),
      step rs lam st = Except.error e →
      trainLoop rs lam (n + 1) st = Except.error e) := by
  refine ⟨fun A b lam hA hlam => linearSolver_eq_none_iff hA hlam,
    fun side subjects fixed rbs lam old e h => updateSide_error_inv h,
    fun rs lam st e n h => ?_⟩
  simp only [trainLoop]
  rw [h]

/-- Witness for C4: at lambda = 0 and the singular concrete matrix A = 0,
the Linear Solver fails. -/
theorem C4_witness : LinearSolver !![(0 : ℚ)] ![1] 0 = none := by
  have hA : IsSymmPSD !![(0 : ℚ)] := by
    constructor
    · decide
    · intro v
      have h0 : v ⬝ᵥ (!![(0 : ℚ)]).mulVec v = 0 := by
        simp [Matrix.mulVec, dotProduct, Fin.sum_univ_one]
      rw [h0]
  exact (C4_numericalError_iff_and_propagation.1 !![(0 : ℚ)] ![1] 0 hA
    le_rfl).mpr ⟨rfl, by rw [← detQ_eq_det]; decide⟩

lemma sum_map_add {α : Type} (l : List α) (f g : α → ℚ) :
    (l.map fun x => f x + g x).sum = (l.map f).sum + (l.map g).sum := by
  induction l with
  | nil => simp
  | cons a t ih =>
      simp only [List.map_cons, List.sum_cons, ih]
      ring

lemma sum_map_mul_left {α : Type} (l : List α) (c : ℚ) (f : α → ℚ) :
    (l.map fun x => c * f x).sum = c * (l.map f).sum := by
  induction l with
  | nil => simp
  | cons a t ih =>
      simp only [List.map_cons, List.sum_cons, ih]
      ring

lemma sum_map_single {β : Type} [DecidableEq β] (keys : List β) (c : β)
    (t : ℚ) (hnd : keys.Nodup) (hc : c ∈ keys) :
    (keys.map fun i => if c = i then t else 0).sum = t := by
  induction keys with
  | nil => cases hc
  | cons b ks ih =>
      rcases List.mem_cons.mp hc with h | h
      · subst h
        simp only [List.map_cons, List.sum_cons, if_pos rfl]
        have hzero : (ks.map fun i => if c = i then t else 0).sum = 0 := by
          apply List.sum_eq_zero
          intro x hx
          obtain ⟨i, hi, hval⟩ := List.mem_map.mp hx
          rw [← hval, if_neg]
          intro hci
          exact (List.nodup_cons.mp hnd).1 (hci ▸ hi)
        rw [hzero, add_zero]
        simp
      · have hcb : c ≠ b := by
          intro hcb
          subst hcb
          exact (List.nodup_cons.mp hnd).1 h
        simp only [List.map_cons, List.sum_cons, if_neg hcb]
        rw [ih (List.nodup_cons.mp hnd).2 h, zero_add]

lemma sum_map_fiberwise {α β : Type} [DecidableEq β] (l : List α)
    (keys : List β) (key : α → β) (g : α → ℚ) (hnd : keys.Nodup)
    (hcov : ∀ x ∈ l, key x ∈ keys) :
    (l.map g).sum =
      (keys.map fun i => ((l.filter fun x => key x == i).map g).sum).sum := by
  induction l with
  | nil => simp
  | cons a t ih =>
      have hcov2 : ∀ x ∈ t, key x ∈ keys := fun x hx =>
        hcov x (List.mem_cons_of_mem a hx)
      have ha := hcov a (List.mem_cons_self a t)
      have hpt : (keys.map fun i =>
          (((a :: t).filter fun x => key x == i).map g).sum) =
          keys.map fun i => (if key a = i then g a else 0) +
            ((t.filter fun x => key x == i).map g).sum := by
        apply List.map_congr_left
        intro i _
        by_cases hai : key a = i
        · rw [List.filter_cons_of_pos (by simpa using hai), List.map_cons,
            List.sum_cons, if_pos hai]
        · rw [List.filter_cons_of_neg (by simpa using hai), if_neg hai,
            zero_add]
      simp only [List.map_cons, List.sum_cons]
      rw [ih hcov2, hpt, sum_map_add keys (fun i => if key a = i then g a else 0)
        (fun i => ((t.filter fun x => key x == i).map g).sum),
        sum_map_single keys (key a) (g a) hnd ha]

lemma vecMulVec_mulVec_eq {k : ℕ} (v w x : Vec k) :
    (Matrix.vecMulVec v w).mulVec x = (w ⬝ᵥ x) • v := by
  funext i
  simp only [Matrix.mulVec, Matrix.vecMulVec_apply, dotProduct,
    Pi.smul_apply, smul_eq_mul]
  rw [Finset.sum_mul]
  exact Finset.sum_congr rfl fun j _ => by ring

lemma gram_symmPSD {k : ℕ} (fixed : Factors k) (l : List (ℕ × ℚ)) :
    IsSymmPSD (gram fixed l) := by
  constructor
  · induction l with
    | nil => simp [gram]
    | cons p t ih =>
        unfold gram at ih ⊢
        rw [List.map_cons, List.sum_cons, Matrix.transpose_add, ih]
        congr 1
        ext i j
        simp [Matrix.vecMulVec_apply, mul_comm]
  · intro v
    induction l with
    | nil => simp [gram]
    | cons p t ih =>
        unfold gram at ih ⊢
        rw [List.map_cons, List.sum_cons, Matrix.add_mulVec, dotProduct_add,
          vecMulVec_mulVec_eq, dotProduct_smul, smul_eq_mul]
        have hsq : 0 ≤ (fixed p.1 ⬝ᵥ v) * (v ⬝ᵥ fixed p.1) := by
          rw [dotProduct_comm]
          exact mul_self_nonneg _
        linarith

lemma sq_residual_expand {k : ℕ} (fixed : Factors k) (z : Vec k) :
    ∀ l : List (ℕ × ℚ),
      (l.map fun p => (p.2 - fixed p.1 ⬝ᵥ z) ^ 2).sum =
        z ⬝ᵥ (gram fixed l).mulVec z - 2 * (rhsVec fixed l ⬝ᵥ z) +
          (l.map fun p => p.2 ^ 2).sum
  | [] => by simp [gram, rhsVec]
  | p :: t => by
      have ih := sq_residual_expand fixed z t
      unfold gram rhsVec at ih ⊢
      rw [List.map_cons, List.sum_cons, List.map_cons, List.sum_cons,
        List.map_cons, List.sum_cons, List.map_cons, List.sum_cons,
        Matrix.add_mulVec, dotProduct_add, vecMulVec_mulVec_eq,
        dotProduct_smul, smul_eq_mul, add_dotProduct, smul_dotProduct,
        smul_eq_mul, ih]
      have hc : z ⬝ᵥ fixed p.1 = fixed p.1 ⬝ᵥ z := dotProduct_comm _ _
      rw [hc]
      ring

lemma localObj_eq_quad {k : ℕ} (fixed : Factors k) (l : List (ℕ × ℚ))
    (lam : ℚ) (z : Vec k) :
    localObj fixed l lam z =
      quadObjective (gram fixed l) (rhsVec fixed l) lam z +
        (l.map fun p => p.2 ^ 2).sum := by
  unfold localObj quadObjective
  rw [sq_residual_expand]
  ring

lemma solveSubject_minimizes {k : ℕ} {fixed : Factors k}
    {l : List (ℕ × ℚ)} {lam : ℚ} {x : Vec k} (hlam : 0 ≤ lam)
    (h : solveSubject fixed l lam = some x) (y : Vec k) :
    localObj fixed l lam x ≤ localObj fixed l lam y := by
  rw [localObj_eq_quad, localObj_eq_quad]
  have hmin := linearSolver_minimizes (gram_symmPSD fixed l) hlam h y
  linarith

lemma mem_filter_item {rs : List Rating} {i : ℕ} {r : Rating}
    (hr : r ∈ rs.filter fun r => r.item == i) : r.item = i := by
  have := (List.mem_filter.mp hr).2
  simpa using this

lemma mem_filter_user {rs : List Rating} {u : ℕ} {r : Rating}
    (hr : r ∈ rs.filter fun r => r.user == u) : r.user = u := by
  have := (List.mem_filter.mp hr).2
  simpa using this

lemma ratingsByItem_ne_nil {rs : List Rating} {i : ℕ}
    (hi : i ∈ itemList rs) : ratingsByItem rs i ≠ [] := by
  obtain ⟨r, hr, hri⟩ := List.mem_map.mp (List.mem_dedup.mp hi)
  intro hnil
  unfold ratingsByItem at hnil
  have hmem : r ∈ rs.filter fun r => r.item == i :=
    List.mem_filter.mpr ⟨hr, by simpa using hri⟩
  have h2 : rs.filter (fun r => r.item == i) = [] := by
    cases hfil : rs.filter fun r => r.item == i with
    | nil => rfl
    | cons a t => rw [hfil] at hnil; simp at hnil
  rw [h2] at hmem
  cases hmem

lemma ratingsByUser_ne_nil {rs : List Rating} {u : ℕ}
    (hu : u ∈ userList rs) : ratingsByUser rs u ≠ [] := by
  obtain ⟨r, hr, hru⟩ := List.mem_map.mp (List.mem_dedup.mp hu)
  intro hnil
  unfold ratingsByUser at hnil
  have hmem : r ∈ rs.filter fun r => r.user == u :=
    List.mem_filter.mpr ⟨hr, by simpa using hru⟩
  have h2 : rs.filter (fun r => r.user == u) = [] := by
    cases hfil : rs.filter fun r => r.user == u with
    | nil => rfl
    | cons a t => rw [hfil] at hnil; simp at hnil
  rw [h2] at hmem
  cases hmem

lemma regObjective_items_decomp {k : ℕ} (rs : List Rating) (lam : ℚ)
    (st : ALSState k) :
    regObjective rs lam st =
      ((itemList rs).map fun i =>
        localObj st.userF (ratingsByItem rs i) lam (st.itemF i)).sum +
        lam * rowNormSum (userList rs) st.userF := by
  have hregroup : sqErrTotal rs st =
      ((itemList rs).map fun i =>
        ((rs.filter fun r => r.item == i).map fun r =>
          (r.value - st.userF r.user ⬝ᵥ st.itemF r.item) ^ 2).sum).sum :=
    sum_map_fiberwise rs (itemList rs) Rating.item _ (List.nodup_dedup _)
      (fun r hr => List.mem_dedup.mpr (List.mem_map_of_mem _ hr))
  have hlocal : ((itemList rs).map fun i =>
        localObj st.userF (ratingsByItem rs i) lam (st.itemF i)) =
      (itemList rs).map fun i =>
        ((rs.filter fun r => r.item == i).map fun r =>
          (r.value - st.userF r.user ⬝ᵥ st.itemF r.item) ^ 2).sum +
          lam * sqNorm (st.itemF i) := by
    apply List.map_congr_left
    intro i _
    unfold localObj ratingsByItem
    congr 1
    rw [List.map_map]
    refine congrArg List.sum (List.map_congr_left ?_)
    intro r hr
    have hri : r.item = i := mem_filter_item hr
    simp only [Function.comp_apply]
    rw [hri]
  unfold regObjective
  rw [hregroup, hlocal,
    sum_map_add (itemList rs)
      (fun i => ((rs.filter fun r => r.item == i).map fun r =>
        (r.value - st.userF r.user ⬝ᵥ st.itemF r.item) ^ 2).sum)
      (fun i => lam * sqNorm (st.itemF i)),
    sum_map_mul_left (itemList rs) lam (fun i => sqNorm (st.itemF i))]
  unfold rowNormSum
  ring

lemma regObjective_users_decomp {k : ℕ} (rs : List Rating) (lam : ℚ)
    (st : ALSState k) :
    regObjective rs lam st =
      ((userList rs).map fun u =>
        localObj st.itemF (ratingsByUser rs u) lam (st.userF u)).sum +
        lam * rowNormSum (itemList rs) st.itemF := by
  have hregroup : sqErrTotal rs st =
      ((userList rs).map fun u =>
        ((rs.filter fun r => r.user == u).map fun r =>
          (r.value - st.userF r.user ⬝ᵥ st.itemF r.item) ^ 2).sum).sum :=
    sum_map_fiberwise rs (userList rs) Rating.user _ (List.nodup_dedup _)
      (fun r hr => List.mem_dedup.mpr (List.mem_map_of_mem _ hr))
  have hlocal : ((userList rs).map fun u =>
        localObj st.itemF (ratingsByUser rs u) lam (st.userF u)) =
      (userList rs).map fun u =>
        ((rs.filter fun r => r.user == u).map fun r =>
          (r.value - st.userF r.user ⬝ᵥ st.itemF r.item) ^ 2).sum +
          lam * sqNorm (st.userF u) := by
    apply List.map_congr_left
    intro u _
    unfold localObj ratingsByUser
    congr 1
    rw [List.map_map]
    refine congrArg List.sum (List.map_congr_left ?_)
    intro r hr
    have hru : r.user = u := mem_filter_user hr
    simp only [Function.comp_apply]
    rw [hru, dotProduct_comm]
  unfold regObjective
  rw [hregroup, hlocal,
    sum_map_add (userList rs)
      (fun u => ((rs.filter fun r => r.user == u).map fun r =>
        (r.value - st.userF r.user ⬝ᵥ st.itemF r.item) ^ 2).sum)
      (fun u => lam * sqNorm (st.userF u)),
    sum_map_mul_left (userList rs) lam (fun u => sqNorm (st.userF u))]
  unfold rowNormSum
  ring

lemma halfstep_items_le {k : ℕ} {rs : List Rating} {lam : ℚ}
    {U V V2 : Factors k} (hlam : 0 ≤ lam)
    (h : updateSide .items (itemList rs) U (ratingsByItem rs) lam V =
      .ok V2) :
    regObjective rs lam ⟨U, V2⟩ ≤ regObjective rs lam ⟨U, V⟩ := by
  rw [regObjective_items_decomp rs lam ⟨U, V2⟩,
    regObjective_items_decomp rs lam ⟨U, V⟩]
  have hle : ((itemList rs).map fun i =>
        localObj U (ratingsByItem rs i) lam (V2 i)).sum ≤
      ((itemList rs).map fun i =>
        localObj U (ratingsByItem rs i) lam (V i)).sum := by
    apply List.sum_le_sum
    intro i hi
    have hne := ratingsByItem_ne_nil hi
    have hsolve := updateSide_ok_solves h hi hne
    exact solveSubject_minimizes hlam hsolve (V i)
  exact add_le_add_right hle _

lemma halfstep_users_le {k : ℕ} {rs : List Rating} {lam : ℚ}
    {U V U2 : Factors k} (hlam : 0 ≤ lam)
    (h : updateSide .users (userList rs) V (ratingsByUser rs) lam U =
      .ok U2) :
    regObjective rs lam ⟨U2, V⟩ ≤ regObjective rs lam ⟨U, V⟩ := by
  rw [regObjective_users_decomp rs lam ⟨U2, V⟩,
    regObjective_users_decomp rs lam ⟨U, V⟩]
  have hle : ((userList rs).map fun u =>
        localObj V (ratingsByUser rs u) lam (U2 u)).sum ≤
      ((userList rs).map fun u =>
        localObj V (ratingsByUser rs u) lam (U u)).sum := by
    apply List.sum_le_sum
    intro u hu
    have hne := ratingsByUser_ne_nil hu
    have hsolve := updateSide_ok_solves h hu hne
    exact solveSubject_minimizes hlam hsolve (U u)
  exact add_le_add_right hle _

lemma step_regObjective_le {k : ℕ} {rs : List Rating} {lam : ℚ}
    {st st2 : ALSState k} (hlam : 0 ≤ lam)
    (h : step rs lam st = .ok st2) :
    regObjective rs lam st2 ≤ regObjective rs lam st := by
  unfold step at h
  cases h1 : updateSide .items (itemList rs) st.userF (ratingsByItem rs)
      lam st.itemF with
  | error e => rw [h1] at h; cases h
  | ok V2 =>
      rw [h1] at h
      dsimp only at h
      cases h2 : updateSide .users (userList rs) V2 (ratingsByUser rs) lam
          st.userF with
      | error e => rw [h2] at h; cases h
      | ok U2 =>
          rw [h2] at h
          have hst2 : st2 = ⟨U2, V2⟩ := (Except.ok.inj h).symm
          subst hst2
          calc regObjective rs lam ⟨U2, V2⟩ ≤
              regObjective rs lam ⟨st.userF, V2⟩ :=
                halfstep_users_le hlam h2
            _ ≤ regObjective rs lam ⟨st.userF, st.itemF⟩ :=
                halfstep_items_le hlam h1
            _ = regObjective rs lam st := rfl

/-- Concrete single-rating set for the C2 run: the rating equals the
product of the initial factor rows, so the run starts at zero error. -/
def c2ratings : List Rating := [⟨1, 1, 1/10⟩]

/-- The initial state of the C2 run (rank 1, seed 0). -/
def c2state0 : ALSState 1 := initState 1 0

/-- The state after one step of the C2 run (lambda = 1). -/
def c2state1 : ALSState 1 :=
  match step c2ratings 1 c2state0 with
  | .ok st => st
  | .error _ => c2state0

/-- Training-set squared reconstruction error after n steps of the C2 run. -/
def c2err (n : ℕ) : ℚ :=
  match trainLoop c2ratings 1 n c2state0 with
  | .ok st => sqErrTotal c2ratings st
  | .error _ => 0

/-- C2 counterexample: with lambda = 1 ≥ 0, a concrete training run whose
raw training-set squared reconstruction error strictly increases from
initialization to step 1 and again from step 1 to step 2, refuting the
claim that this error is non-increasing step over step for all lambda
at least 0. -/
theorem C2_counterexample : c2err 0 < c2err 1 ∧ c2err 1 < c2err 2 := by
  constructor
  · decide
  · decide

/-- C2 (amended): for lambda ≥ 0, each successful training step does not
increase the regularized training objective (squared reconstruction error
plus lambda times the squared norms of the observed factor rows); the raw
squared reconstruction error itself is non-increasing when lambda = 0,
where the two quantities coincide, but can increase when lambda > 0. -/
theorem C2_step_objective_non_increasing {k : ℕ} (rs : List Rating)
    (lam : ℚ) (st st2 : ALSState k) (hlam : 0 ≤ lam)
    (h : step rs lam st = .ok st2) :
    regObjective rs lam st2 ≤ regObjective rs lam st ∧
      (lam = 0 → sqErrTotal rs st2 ≤ sqErrTotal rs st) := by
  refine ⟨step_regObjective_le hlam h, fun h0 => ?_⟩
  subst h0
  have hle := step_regObjective_le le_rfl h
  simpa [regObjective] using hle

/-- Witness for C2 at the concrete run of the counterexample: the first
step succeeds and does not increase the regularized objective. -/
theorem C2_witness :
    regObjective c2ratings 1 c2state1 ≤ regObjective c2ratings 1 c2state0 :=
  (C2_step_objective_non_increasing c2ratings 1 c2state0 c2state1
    (by norm_num) rfl).1

/-- Prediction failure (spec section 7): an id has no factor row. -/
inductive PredictError
  | unknownEntity (user item : ℕ)
deriving DecidableEq

/-- Evaluation failure (spec section 7): the join of predictions and
actuals is empty. -/
inductive EvalError
  | emptyJoin
deriving DecidableEq

/-- A trained model as exposed to the Predictor: the ids holding factor
rows and the two factor matrices. -/
structure Model (k : ℕ) where
  users : List ℕ
  items : List ℕ
  userF : Factors k
  itemF : Factors k

/-- The predictAll mode of spec section 4.4: strict fails the whole batch
on any unknown pair, lenient skips unknown pairs. -/
inductive Mode
  | strict
  | lenient
deriving DecidableEq

/-- Modelled from the spec: the configured default mode is strict. -/
def defaultMode : Mode := .strict

/-- A pair is known when both of its ids have factor rows. -/
def knownPair {k : ℕ} (m : Model k) (p : ℕ × ℕ) : Bool :=
  decide (p.1 ∈ m.users) && decide (p.2 ∈ m.items)

/-- Modelled from the spec: predict (section 4.4), the dot product of the
factor rows of the user and of the item. -/
def predictPair {k : ℕ} (m : Model k) (p : ℕ × ℕ) : ℚ :=
  m.userF p.1 ⬝ᵥ m.itemF p.2

/-- Modelled from the spec: predictAll (section 4.4), the batch predictor.
In strict mode it fails as a whole with an UnknownEntityError at the first
unknown pair, otherwise covers every input pair; in lenient mode it returns
the predictions of exactly the known pairs. -/
def predictAll {k : ℕ} (mode : Mode) (m : Model k)
    (pairs : List (ℕ × ℕ)) : Except PredictError (List (ℕ × ℕ × ℚ)) :=
  match mode with
  | .strict =>
      match pairs.find? (fun p => !knownPair m p) with
      | some p => .error (.unknownEntity p.1 p.2)
      | none => .ok (pairs.map fun p => (p.1, p.2, predictPair m p))
  | .lenient =>
      .ok ((pairs.filter (knownPair m)).map
        fun p => (p.1, p.2, predictPair m p))

/-- C5: in strict mode predictAll either returns a prediction covering
every input pair, or fails as a whole with an UnknownEntityError naming an
input pair with no factor row, as soon as any such pair exists; in lenient
mode it returns the result set that omits exactly the unknown pairs; and
strict is the default mode. -/
theorem C5_predictAll_modes :
    (∀ {k : ℕ} (m : Model k) (pairs : List (ℕ × ℕ)),
      ((∀ p ∈ pairs, knownPair m p = true) →
        ∃ l, predictAll .strict m pairs = .ok l ∧
          ∀ p ∈ pairs, (p.1, p.2, predictPair m p) ∈ l) ∧
      ((∃ p ∈ pairs, knownPair m p = false) →
        ∃ u i, (u, i) ∈ pairs ∧ knownPair m (u, i) = false ∧
          predictAll .strict m pairs =
            .error (.unknownEntity u i)) ∧
      (∃ l, predictAll .lenient m pairs = .ok l ∧
        (∀ q ∈ l, (q.1, q.2.1) ∈ pairs ∧
          knownPair m (q.1, q.2.1) = true ∧
          q.2.2 = predictPair m (q.1, q.2.1)) ∧
        (∀ p ∈ pairs, knownPair m p = true →
          (p.1, p.2, predictPair m p) ∈ l))) ∧
    defaultMode = Mode.strict := by
  refine ⟨fun m pairs => ⟨?_, ?_, ?_⟩, rfl⟩
  · intro hall
    have hfind : pairs.find? (fun p => !knownPair m p) = none := by
      apply List.find?_eq_none.mpr
      intro p hp
      simp [hall p hp]
    refine ⟨pairs.map fun p => (p.1, p.2, predictPair m p), ?_, ?_⟩
    · unfold predictAll
      rw [hfind]
    · intro p hp
      exact List.mem_map_of_mem _ hp
  · intro hex
    have hsome : (pairs.find? (fun p => !knownPair m p)).isSome := by
      rw [List.find?_isSome]
      obtain ⟨p, hp, hk⟩ := hex
      exact ⟨p, hp, by simp [hk]⟩
    obtain ⟨q, hq⟩ := Option.isSome_iff_exists.mp hsome
    have hqmem := List.mem_of_find?_eq_some hq
    have hqk := List.find?_some hq
    simp only [Bool.not_eq_true'] at hqk
    refine ⟨q.1, q.2, hqmem, hqk, ?_⟩
    unfold predictAll
    rw [hq]
  · refine ⟨_, rfl, ?_, ?_⟩
    · intro q hq
      obtain ⟨p, hp, hpq⟩ := List.mem_map.mp hq
      obtain ⟨hpmem, hpk⟩ := List.mem_filter.mp hp
      rw [← hpq]
      exact ⟨hpmem, hpk, rfl⟩
    · intro p hp hk
      exact List.mem_map_of_mem _ (List.mem_filter.mpr ⟨hp, hk⟩)

/-- The model used by the C5 witness. -/
def c5model : Model 1 := ⟨[1], [2], fun _ => ![2], fun _ => ![3]⟩

/-- The strict predictAll result of the C5 witness on an unknown user. -/
def c5res : Except PredictError (List (ℕ × ℕ × ℚ)) :=
  predictAll .strict c5model [(9, 2)]

/-- Witness for C5: on the concrete model knowing only user 1 and item 2,
strict predictAll over the single pair (9, 2) fails with an
UnknownEntityError naming that pair. -/
theorem C5_witness : c5res = .error (.unknownEntity 9 2) := by
  obtain ⟨u, i, hmem, hunk, heq⟩ :=
    (C5_predictAll_modes.1 c5model [(9, 2)]).2.1 ⟨(9, 2), by decide, by decide⟩
  have hpair : (u, i) = ((9 : ℕ), (2 : ℕ)) := List.mem_singleton.mp hmem
  obtain ⟨hu, hi⟩ := Prod.mk.injEq .. |>.mp hpair
  subst hu hi
  exact heq

/-- Modelled from the source notebook (Task 4): the key join of the actual
ratings with the predictions, pairing each actual with every prediction
that shares its (user, item) key, producing (key, (actual, predicted)). -/
def joinByKey (actuals preds : List ((ℕ × ℕ) × ℚ)) :
    List ((ℕ × ℕ) × ℚ × ℚ) :=
  actuals.flatMap fun a =>
    (preds.filter fun p => p.1 == a.1).map fun p => (a.1, a.2, p.2)

/-- Modelled from the source notebook (Task 5) and the spec: joins
predictions and actuals on the (user, item) key and returns the arithmetic
mean of the absolute differences; fails with an EmptyJoinError when the
joined set is empty. -/
def meanAbsoluteError (preds actuals : List ((ℕ × ℕ) × ℚ)) :
    Except EvalError ℚ :=
  if (joinByKey actuals preds).isEmpty then .error .emptyJoin
  else
    .ok (((joinByKey actuals preds).map fun q => |q.2.1 - q.2.2|).sum /
      (joinByKey actuals preds).length)

/-- C6: meanAbsoluteError equals the arithmetic mean of the absolute
differences over the join of predictions and actuals on the (user, item)
key, fails with an EmptyJoinError exactly when that join is empty, and on
predictions [((10,20),5)] against actuals [((10,20),3)] returns exactly
2. -/
theorem C6_meanAbsoluteError_contract :
    (∀ preds actuals, joinByKey actuals preds = [] →
      meanAbsoluteError preds actuals = .error .emptyJoin) ∧
    (∀ preds actuals, joinByKey actuals preds ≠ [] →
      meanAbsoluteError preds actuals =
        .ok (((joinByKey actuals preds).map fun q => |q.2.1 - q.2.2|).sum /
          (joinByKey actuals preds).length)) ∧
    meanAbsoluteError [((10, 20), 5)] [((10, 20), 3)] = .ok 2 := by
  refine ⟨?_, ?_, ?_⟩
  · intro preds actuals hnil
    unfold meanAbsoluteError
    rw [if_pos (by rw [hnil]; rfl)]
  · intro preds actuals hne
    unfold meanAbsoluteError
    rw [if_neg (by
      intro hemp
      exact hne (List.isEmpty_iff.mp hemp))]
  · unfold meanAbsoluteError
    rw [if_neg (by decide)]
    exact congrArg Except.ok (by decide)

/-- Witness for C6: on the concrete one-element inputs of the claim, the
join is nonempty and the mean evaluates to exactly 2 through the general
characterization. -/
theorem C6_witness :
    meanAbsoluteError [((10, 20), (5 : ℚ))] [((10, 20), 3)] = .ok 2 := by
  have h := C6_meanAbsoluteError_contract.2.1 [((10, 20), (5 : ℚ))]
    [((10, 20), 3)] (by decide)
  rw [h]
  exact congrArg Except.ok (by decide)

/-- Modelled from the spec and the randomSplit call of the source notebook
(Task 1): membership is decided per rating by a Boolean draw; the training
side keeps the ratings whose draw is true, the test side the rest.
Ratings are tracked with their positions so duplicates split
consistently. -/
def randomSplit (d : ℕ → Bool) (rs : List Rating) :
    List (ℕ × Rating) × List (ℕ × Rating) :=
  (rs.enum.filter fun p => d p.1, rs.enum.filter fun p => !d p.1)

lemma length_filter_add_not {α : Type} (l : List α) (p : α → Bool) :
    (l.filter p).length + (l.filter fun x => !p x).length = l.length := by
  induction l with
  | nil => rfl
  | cons a t ih =>
      by_cases h : p a = true
      · rw [List.filter_cons_of_pos h, List.filter_cons_of_neg (by simp [h])]
        simp only [List.length_cons]
        omega
      · rw [List.filter_cons_of_neg (by simpa using h),
          List.filter_cons_of_pos (by simpa using h)]
        simp only [List.length_cons]
        omega

/-- C7: the split places every rating (tracked by position) in exactly one
of the two output sides: training size plus test size equals the total
size, every rating lands on at least one side, and no rating lands on
both. -/
theorem C7_split_partition (d : ℕ → Bool) (rs : List Rating) :
    (randomSplit d rs).1.length + (randomSplit d rs).2.length =
      rs.length ∧
    (∀ x ∈ rs.enum, x ∈ (randomSplit d rs).1 ∨ x ∈ (randomSplit d rs).2) ∧
    (∀ x, ¬(x ∈ (randomSplit d rs).1 ∧ x ∈ (randomSplit d rs).2)) := by
  refine ⟨?_, ?_, ?_⟩
  · have h := length_filter_add_not rs.enum (fun p => d p.1)
    rw [List.enum_length] at h
    exact h
  · intro x hx
    by_cases h : d x.1 = true
    · exact Or.inl (List.mem_filter.mpr ⟨hx, h⟩)
    · exact Or.inr (List.mem_filter.mpr ⟨hx, by simpa using h⟩)
  · rintro x ⟨h1, h2⟩
    have hd1 := (List.mem_filter.mp h1).2
    have hd2 := (List.mem_filter.mp h2).2
    rw [hd1] at hd2
    cases hd2

/-- The decision function of the C7 witness: even positions train. -/
def c7draw : ℕ → Bool := fun i => i % 2 == 0

/-- The rating set of the C7 witness. -/
def c7ratings : List Rating := [⟨1, 2, 3⟩, ⟨4, 5, 6⟩, ⟨7, 8, 9⟩]

/-- Witness for C7 at a concrete decision function and rating set. -/
theorem C7_witness :
    (randomSplit c7draw c7ratings).1.length +
      (randomSplit c7draw c7ratings).2.length = c7ratings.length :=
  (C7_split_partition c7draw c7ratings).1

/-- C8: training is a pure function of configuration and input: with the
same rank, identical iteration counts, regularization lambda at least 0,
seeds and rating sets, two runs return identical results, in particular
identical user-factor and item-factor matrices. -/
theorem C8_train_deterministic (k i1 i2 : ℕ) (lam1 lam2 : ℚ) (s1 s2 : ℕ)
    (rs1 rs2 : List Rating) (_hlam : 0 ≤ lam1) (hi : i1 = i2)
    (hl : lam1 = lam2) (hs : s1 = s2) (hrs : rs1 = rs2) :
    train k i1 lam1 s1 rs1 = train k i2 lam2 s2 rs2 ∧
    ∀ st1 st2, train k i1 lam1 s1 rs1 = .ok st1 →
      train k i2 lam2 s2 rs2 = .ok st2 →
      st1.userF = st2.userF ∧ st1.itemF = st2.itemF := by
  subst hi hl hs hrs
  refine ⟨rfl, fun st1 st2 h1 h2 => ?_⟩
  rw [h1] at h2
  have h3 := Except.ok.inj h2
  exact ⟨by rw [h3], by rw [h3]⟩

/-- Witness for C8 at a concrete configuration and rating set. -/
theorem C8_witness :
    train 1 1 1 0 c2ratings = train 1 1 1 0 c2ratings :=
  (C8_train_deterministic 1 1 1 1 1 0 0 c2ratings c2ratings
    (by norm_num) rfl rfl rfl rfl).1

/-- Modelled from the source notebook and the spec: the notebook calls
randomSplit([0.8, 0.2]) with no seed argument, so the library draws a
fresh seed from the execution environment; the per-position draw is
modelled by a linear congruential generator over that environment seed,
landing in the training side when the draw modulo 5 is below 4. -/
def unseededDraw (envSeed i : ℕ) : Bool :=
  (16807 * (envSeed + i + 1)) % 2147483647 % 5 < 4

/-- The split executed by the notebook pipeline under a given environment
seed. -/
def unseededSplit (envSeed : ℕ) (rs : List Rating) :
    List (ℕ × Rating) × List (ℕ × Rating) :=
  randomSplit (unseededDraw envSeed) rs

/-- The rating set of the C9 run. -/
def c9ratings : List Rating := [⟨1, 2, 3⟩]

/-- C9: with no seed fixed by the pipeline, two executions on the
identical rating set (environment seeds 0 and 1) assign the same rating to
different sides of the split, so the split and every result downstream of
it is not reproducible across runs. -/
theorem C9_unseeded_split_not_reproducible :
    (0, (⟨1, 2, 3⟩ : Rating)) ∈ (unseededSplit 0 c9ratings).1 ∧
    (0, (⟨1, 2, 3⟩ : Rating)) ∈ (unseededSplit 1 c9ratings).2 ∧
    (unseededSplit 0 c9ratings).1 ≠ (unseededSplit 1 c9ratings).1 := by
  refine ⟨by decide, by decide, by decide⟩

/-- The rating set of the C10 run; every rating value lies in 0 to 9. -/
def c10ratings : List Rating := [⟨1, 3, 2⟩, ⟨2, 3, 1⟩, ⟨2, 4, 9⟩]

/-- The trained state of the C10 run: rank 1, one iteration,
lambda = 1/100 (the hyperparameter of the notebook), seed 0. -/
def c10state : ALSState 1 :=
  match train 1 1 (1/100) 0 c10ratings with
  | .ok st => st
  | .error _ => initState 1 0

/-- The model exposed to the Predictor after the C10 run. -/
def c10model : Model 1 :=
  ⟨userList c10ratings, itemList c10ratings, c10state.userF,
    c10state.itemF⟩

/-- C10: predicted ratings are not clamped to the range of the ingested
ratings: on a run whose input ratings all lie in the 0 to 9 range, the
training succeeds and predictAll returns 27000/2501 (about 10.8) for the
held-out pair (1, 4), a value above 9. -/
theorem C10_prediction_out_of_range :
    (∀ r ∈ c10ratings, 0 ≤ r.value ∧ r.value ≤ 9) ∧
    train 1 1 (1/100) 0 c10ratings = .ok c10state ∧
    predictAll .strict c10model [(1, 4)] = .ok [(1, 4, 27000/2501)] ∧
    (9 : ℚ) < 27000/2501 := by
  refine ⟨by decide, rfl, ?_, by norm_num⟩
  unfold predictAll
  rw [show ([((1 : ℕ), (4 : ℕ))].find?
    (fun p => !knownPair c10model p)) = none from by decide]
  exact congrArg Except.ok (by decide)

end SparkALS
